import Mathlib

/-!
Shallow embedding of the UUIDv1_Sandwicher core (`app.py`): the hex
timestamp codec, the field analyzer's version heuristics, the range
estimator/enumerator, and the background-generation task engine.
Machine integers are modelled as `Nat`/`Int` with explicit `%`/`/` by
powers of two in place of the source's masks and shifts; the hex-string
manipulation of the Ruby-like generator is modelled over `List Char`.
-/

namespace UUIDSandwicher

/-- Hexadecimal value of one character, as Python's `int(s, 16)` reads a
digit: `0`–`9`, `a`–`f` and `A`–`F`; anything else is not a hex digit. -/
def hexVal? (c : Char) : Option Nat :=
  if 48 ≤ c.toNat ∧ c.toNat ≤ 57 then some (c.toNat - 48)
  else if 97 ≤ c.toNat ∧ c.toNat ≤ 102 then some (c.toNat - 87)
  else if 65 ≤ c.toNat ∧ c.toNat ≤ 70 then some (c.toNat - 55)
  else none

/-- A character is a hex digit when `hexVal?` succeeds. -/
def isHexDigit (c : Char) : Bool :=
  (hexVal? c).isSome

/-- Parse a big-endian list of hex digits, modelling Python's
`int(s, 16)`.  Every call site in the embedding passes valid hex digits,
so the `getD 0` default is never reached. -/
def parseHex (l : List Char) : Nat :=
  l.foldl (fun a c => 16 * a + (hexVal? c).getD 0) 0

/-- Fuel-driven core of hex rendering: the digits of `n` in base 16,
most significant first, empty for `n = 0`. -/
def natToHexGo : Nat → Nat → List Char
  | 0, _ => []
  | fuel + 1, n =>
    if n = 0 then [] else natToHexGo fuel (n / 16) ++ [Nat.digitChar (n % 16)]

/-- Minimal lowercase hex rendering of a natural number, modelling
Python's `f"{n:x}"` / Ruby's `to_s(16)` (so `0` renders as `"0"`). -/
def natToHex (n : Nat) : List Char :=
  if n = 0 then ['0'] else natToHexGo n n

/-- Left-pad with `'0'` to width `w`, modelling Python's `str.zfill`. -/
def zfill (w : Nat) (l : List Char) : List Char :=
  List.replicate (w - l.length) '0' ++ l

/-- Fixed-width hex rendering, modelling Python's `f"{n:0wx}"`. -/
def padHex (w n : Nat) : List Char :=
  zfill w (natToHex n)

/-- Split a character list on `'-'`, as reading the hyphen-separated
groups of a rendered UUID string. -/
def splitDash : List Char → List (List Char)
  | [] => [[]]
  | c :: r =>
    if c = '-' then [] :: splitDash r
    else
      match splitDash r with
      | [] => [[c]]
      | g :: gs => (c :: g) :: gs

/-- The six integer fields of a 128-bit UUID in the order of Python's
`uuid.UUID.fields`: `time_low` (32 bits), `time_mid` (16), ` time_hi_and_version`
(16), `clock_seq_hi_and_reserved` (8), `clock_seq_low` (8), `node` (48). -/
structure UUIDFields where
  time_low : Nat
  time_mid : Nat
  time_hi_version : Nat
  clock_seq_hi : Nat
  clock_seq_low : Nat
  node : Nat
  deriving DecidableEq

/-- Field bounds guaranteed by `uuid.UUID` for every syntactically valid
UUID string. -/
def Valid (u : UUIDFields) : Prop :=
  u.time_low < 2 ^ 32 ∧ u.time_mid < 2 ^ 16 ∧ u.time_hi_version < 2 ^ 16 ∧
    u.clock_seq_hi < 2 ^ 8 ∧ u.clock_seq_low < 2 ^ 8 ∧ u.node < 2 ^ 48

instance (u : UUIDFields) : Decidable (Valid u) := by
  unfold Valid; infer_instance

/-- The 60-bit range integer of a UUID, exactly as `estimate_range_size`,
`generate_range_background` and `generate_uuids_to_file_fast_with_progress`
compute it: format `time_hi_and_version` as 4 hex digits and drop the first
(the version nibble), format `time_mid` as 4 and `time_low` as 8 hex digits,
concatenate and parse the 15-digit hex string. -/
def extractTimestamp (u : UUIDFields) : Nat :=
  parseHex ((padHex 4 u.time_hi_version).drop 1
    ++ padHex 4 u.time_mid ++ padHex 8 u.time_low)

/-- The 60-bit integer of a UUID as the SPEC's words describe it (claim
C1): the version-nibble-stripped `time_hi`, `time_mid` and `time_low`
joined as one integer.  Kept separate from `extractTimestamp` (the
source's hex-string computation) so the two can be compared. -/
def spec_timestamp60 (u : UUIDFields) : Nat :=
  u.time_hi_version % 4096 * 2 ^ 48 + u.time_mid * 2 ^ 32 + u.time_low

/-- The numeric part of the dictionary returned by
`UUIDv1Generator.estimate_range_size` (the duration estimates are
presentation only and are not modelled). -/
structure RangeEstimate where
  start_timestamp_hex : Nat
  end_timestamp_hex : Nat
  total_possible : Nat
  deriving DecidableEq

/-- `UUIDv1Generator.estimate_range_size`: extract both 60-bit integers,
swap when `start > end`, and count `end - start + 1` inclusively. -/
def estimate_range_size (a b : UUIDFields) : RangeEstimate :=
  let s := extractTimestamp a
  let e := extractTimestamp b
  if s > e then
    { start_timestamp_hex := e, end_timestamp_hex := s,
      total_possible := s - e + 1 }
  else
    { start_timestamp_hex := s, end_timestamp_hex := e,
      total_possible := e - s + 1 }

/-- `FastUUIDv1Generator.generate_uuid_v1_custom`: render the timestamp
as 15 zero-filled hex digits, slice `high = hex[0:3]`, `mid = hex[3:7]`,
`low = hex[7:]`, and format `low-mid-{save}{high}-{clock}-{mac}`.  The
source's `try/except` never fires on these pure string operations, so the
embedding is total. -/
def generate_uuid_v1_custom (timestamp_hex : Nat)
    (clock_seq mac_address : List Char) (save_char : Char) : List Char :=
  let hex_str := zfill 15 (natToHex timestamp_hex)
  let high := hex_str.take 3
  let mid := (hex_str.drop 3).take 4
  let low := hex_str.drop 7
  low ++ ['-'] ++ mid ++ ['-'] ++ [save_char] ++ high
    ++ ['-'] ++ clock_seq ++ ['-'] ++ mac_address

/-- The fixed clock-sequence string the enumerator takes from a UUID:
`f"{fields[3]:02x}{fields[4]:02x}"`. -/
def clockStr (u : UUIDFields) : List Char :=
  padHex 2 u.clock_seq_hi ++ padHex 2 u.clock_seq_low

/-- The fixed MAC string the enumerator takes from a UUID:
`f"{fields[5]:012x}"`. -/
def macStr (u : UUIDFields) : List Char :=
  padHex 12 u.node

/-- The saved version nibble the enumerator takes from a UUID: the first
character of `f"{fields[2]:04x}"`. -/
def saveChar (u : UUIDFields) : Char :=
  (padHex 4 u.time_hi_version).headI

/-- The sequence of UUID lines `generate_range_background` (and the fast
generator) writes to the output file: the two 60-bit integers are
extracted and swapped into order, while `clock_seq`, `mac_address` and
`save_char` are read from the caller-supplied `start_uuid` argument, and
one line is rendered for every timestamp of the inclusive range in
ascending order (`for current in range(start, end + 1)`). -/
def rangeOutputs (start_u end_u : UUIDFields) : List (List Char) :=
  let s0 := extractTimestamp start_u
  let e0 := extractTimestamp end_u
  let s := if s0 > e0 then e0 else s0
  let e := if s0 > e0 then s0 else e0
  (List.range (e - s + 1)).map fun i =>
    generate_uuid_v1_custom (s + i) (clockStr start_u) (macStr start_u)
      (saveChar start_u)

/-- Decode the 60-bit timestamp back out of one rendered UUID line: split
on `'-'`, take the third group without its leading version nibble, the
second group and the first group, and parse the concatenation as hex
(the inverse reading used by `estimate_range_size` on real UUIDs). -/
def lineTimestamp (line : List Char) : Nat :=
  match splitDash line with
  | [g1, g2, g3, _, _] => parseHex (g3.drop 1 ++ g2 ++ g1)
  | _ => 0

/-- The four UUID variant classes of CPython's `uuid.UUID.variant`
property, decided from the top bits of `clock_seq_hi_and_reserved`. -/
inductive PyVariant
  | reserved_ncs
  | rfc_4122
  | reserved_microsoft
  | reserved_future
  deriving DecidableEq

/-- CPython's `uuid.UUID.variant`: tests the `0x80`, `0x40`, `0x20` bits
of `clock_seq_hi_and_reserved` in turn (bit `k` of the byte is
`clock_seq_hi / 2^k % 2`). -/
def python_variant (u : UUIDFields) : PyVariant :=
  if u.clock_seq_hi / 128 % 2 = 0 then .reserved_ncs
  else if u.clock_seq_hi / 64 % 2 = 0 then .rfc_4122
  else if u.clock_seq_hi / 32 % 2 = 0 then .reserved_microsoft
  else .reserved_future

/-- CPython's `uuid.UUID.version`: the top nibble of
`time_hi_and_version`, but only for RFC-4122-variant UUIDs; `None`
otherwise. -/
def python_version (u : UUIDFields) : Option Nat :=
  if python_variant u = PyVariant.rfc_4122 then
    some (u.time_hi_version / 4096 % 16)
  else none

/-- The 14-bit clock sequence as `analyze_uuid` and `is_likely_uuid_v2`
compute it: `((clock_seq_hi & 0x3f) << 8) | clock_seq_low` (the two parts
occupy disjoint bits, so the or is addition). -/
def clockSeq (u : UUIDFields) : Nat :=
  u.clock_seq_hi % 64 * 256 + u.clock_seq_low

/-- `UUIDv1Generator.is_likely_uuid_v2`: variant bits (`clock_seq_hi >> 6`)
equal to 1 and clock sequence in `[0x0001, 0x3FFF]`. -/
def is_likely_uuid_v2 (u : UUIDFields) : Bool :=
  if u.clock_seq_hi / 64 = 1 then
    if 1 ≤ clockSeq u ∧ clockSeq u ≤ 0x3FFF then true else false
  else false

/-- The version-determination slice of `UUIDv1Generator.analyze_uuid`:
start from the library version, and when it is 1 or `None`, re-label as
version 2 with `possible_v2 = True` whenever `is_likely_uuid_v2` fires.
Returns `(version, possible_v2)`. -/
def analyze_version (u : UUIDFields) : Option Nat × Bool :=
  let version := python_version u
  if version = some 1 ∨ version = none then
    if is_likely_uuid_v2 u then (some 2, true) else (version, false)
  else (version, false)

/-- Python's `int()` applied to a real value: truncation toward zero.
The source applies it to float expressions; the embedding models those
exactly, over `ℚ`, abstracting IEEE-754 rounding. -/
def py_int (q : ℚ) : ℤ :=
  if 0 ≤ q then ⌊q⌋ else ⌈q⌉

/-- The Unix-to-UUID timestamp conversion of
`UUIDv1Generator.generate_uuid_v1`:
`int((timestamp + 12219292800) * 10000000)`. -/
def to_uuid_timestamp (t : ℚ) : ℤ :=
  py_int ((t + 12219292800) * 10000000)

/-- The field construction of `UUIDv1Generator.generate_uuid_v1` at an
explicit timestamp: masks and shifts on the (nonnegative, within the
modelled window) timestamp become `%` and `/` by powers of two, and
or-ing the version bit `1 << 12` into the 12-bit `time_hi` is `+ 0x1000`.
The clock-sequence bytes come from the microsecond count
`int(timestamp * 1000000)` (Python's `>>` on a signed int is floor
division, `& 0xff` is `% 256`, and `| 0x80` on a 6-bit value is `+ 128`). -/
def generate_uuid_v1 (t : ℚ) (node : Nat) : UUIDFields :=
  let uuid_timestamp := (to_uuid_timestamp t).toNat
  { time_low := uuid_timestamp % 0x100000000
    time_mid := uuid_timestamp / 0x100000000 % 0x10000
    time_hi_version := uuid_timestamp / 0x1000000000000 % 0x1000 + 0x1000
    clock_seq_hi := (((py_int (t * 1000000)).fdiv 256) % 64).toNat + 128
    clock_seq_low := ((py_int (t * 1000000)) % 256).toNat
    node := node }

/-- The 60-bit reassembly inside `UUIDv1Generator.uuid_to_timestamp`:
`((time_hi_version & 0x0fff) << 48) | (time_mid << 32) | time_low`, the
or of disjoint shifted fields written as a sum. -/
def uuidTime (u : UUIDFields) : Nat :=
  u.time_hi_version % 0x1000 * 0x1000000000000
    + u.time_mid * 0x100000000 + u.time_low

/-- `UUIDv1Generator.uuid_to_timestamp`: the 60-bit count of
100-nanosecond ticks back to Unix seconds (Python's true division over
`ℚ`). -/
def uuid_to_timestamp (u : UUIDFields) : ℚ :=
  (uuidTime u : ℚ) / 10000000 - 12219292800

/-- The task lifecycle states of the generation engine. -/
inductive TaskStatus
  | queued
  | generating
  | completed
  | cancelled
  | error
  deriving DecidableEq

/-- The write loop of
`FastUUIDv1Generator.generate_uuids_to_file_fast_with_progress` with the
per-item render-and-write step abstracted as `render` (the source's
`generate_uuid_v1_custom` returns `None` on an exception, and both
`if not uuid_str: continue` and `except Exception: continue` silently
skip the item): failed items are dropped and the run still returns
success, after which the caller marks the task `completed`. -/
def run_fast_generation (render : Nat → Option (List Char)) (s e : Nat) :
    List (List Char) × TaskStatus :=
  ((List.range (e + 1 - s)).filterMap fun i => render (s + i),
    TaskStatus.completed)

/-- An injected per-item failure: rendering (or writing) the UUID at
timestamp 1 fails, every other item renders normally. -/
def failing_render (t : Nat) : Option (List Char) :=
  if t = 1 then none else some (natToHex t)

/-- The task record mutated by the `cancel_generation` route: its status,
its `cancelled` flag, whether an error message has been stored, and the
optional output-file handle. -/
structure Task where
  status : TaskStatus
  cancelled : Bool
  error_set : Bool
  file_path : Option Nat
  deriving DecidableEq

/-- The `cancel_generation` route body, for a task present in the
registry: unconditionally set `status = 'cancelled'`, store the
cancellation error message, set the `cancelled` flag, and delete the
output file when the task has one that exists (`file_exists` tracks
`os.path.exists`; the delayed removal of the record from the registry is
a separate thread and is not modelled). -/
def cancel_generation (task : Task) (file_exists : Bool) : Task × Bool :=
  let task' : Task :=
    { task with status := .cancelled, error_set := true, cancelled := true }
  let file_exists' :=
    if task.file_path.isSome && file_exists then false else file_exists
  (task', file_exists')

/-- The successive values the generation loop writes to the task's
`progress` field when `written` lines have been produced out of `total`:
an update fires at every 1000th line and stores
`min(100, count / total_possible * 100)` (the same formula in
`generate_uuids_to_file_fast_with_progress` and
`generate_range_background`). -/
def progress_updates (written total : Nat) : List ℚ :=
  (List.range written).filterMap fun i =>
    if (i + 1) % 1000 = 0 then
      some (min 100 (((i + 1 : Nat) : ℚ) / (total : ℚ) * 100))
    else none

/- ------------------------------------------------------------------ -/
/- Basic lemmas about the hex codec.                                   -/
/- ------------------------------------------------------------------ -/

theorem parseHex_nil : parseHex [] = 0 := rfl

theorem parseHex_foldl (l : List Char) (a : Nat) :
    l.foldl (fun a c => 16 * a + (hexVal? c).getD 0) a
      = a * 16 ^ l.length + parseHex l := by
  induction l generalizing a with
  | nil => simp [parseHex]
  | cons c t ih =>
    simp only [List.foldl_cons, List.length_cons]
    rw [ih]
    have h2 : parseHex (c :: t)
        = (16 * 0 + (hexVal? c).getD 0) * 16 ^ t.length + parseHex t := by
      rw [parseHex, List.foldl_cons, ih]
    rw [h2]
    ring

theorem parseHex_cons (c : Char) (t : List Char) :
    parseHex (c :: t) = (hexVal? c).getD 0 * 16 ^ t.length + parseHex t := by
  have h2 : parseHex (c :: t)
      = (16 * 0 + (hexVal? c).getD 0) * 16 ^ t.length + parseHex t := by
    rw [parseHex, List.foldl_cons, parseHex_foldl]
  rw [h2]
  ring

theorem parseHex_append (l r : List Char) :
    parseHex (l ++ r) = parseHex l * 16 ^ r.length + parseHex r := by
  rw [parseHex, List.foldl_append, ← parseHex, parseHex_foldl]

theorem hexVal?_lt {c : Char} {v : Nat} (h : hexVal? c = some v) : v < 16 := by
  unfold hexVal? at h
  split_ifs at h <;> simp only [Option.some.injEq] at h <;> omega

theorem hexVal?_dash : hexVal? '-' = none := by decide

theorem isHexDigit_ne_dash {c : Char} (h : isHexDigit c) : c ≠ '-' := by
  intro hc
  rw [hc] at h
  simp [isHexDigit, hexVal?_dash] at h

theorem hexVal?_digitChar {k : Nat} (h : k < 16) :
    hexVal? (Nat.digitChar k) = some k := by
  interval_cases k <;> decide

theorem isHexDigit_digitChar {k : Nat} (h : k < 16) :
    isHexDigit (Nat.digitChar k) := by
  simp [isHexDigit, hexVal?_digitChar h]

theorem parseHex_lt {l : List Char} (h : ∀ c ∈ l, isHexDigit c) :
    parseHex l < 16 ^ l.length := by
  induction l with
  | nil => simp [parseHex]
  | cons c t ih =>
    rw [parseHex_cons, List.length_cons]
    have hc : isHexDigit c := h c (by simp)
    have ht : parseHex t < 16 ^ t.length := ih (fun x hx => h x (by simp [hx]))
    obtain ⟨v, hv⟩ := Option.isSome_iff_exists.mp hc
    have hv16 : v < 16 := hexVal?_lt hv
    rw [hv]
    simp only [Option.getD_some]
    calc v * 16 ^ t.length + parseHex t
        < v * 16 ^ t.length + 16 ^ t.length := by omega
      _ = (v + 1) * 16 ^ t.length := by ring
      _ ≤ 16 * 16 ^ t.length := by
          exact Nat.mul_le_mul_right _ (by omega)
      _ = 16 ^ (t.length + 1) := by ring

theorem natToHexGo_zero (fuel : Nat) : natToHexGo fuel 0 = [] := by
  cases fuel <;> simp [natToHexGo]

theorem parseHex_natToHexGo :
    ∀ fuel n, n < 16 ^ fuel → parseHex (natToHexGo fuel n) = n := by
  intro fuel
  induction fuel with
  | zero => intro n h; interval_cases n; simp [natToHexGo, parseHex]
  | succ f ih =>
    intro n h
    by_cases hn : n = 0
    · simp [natToHexGo, hn, parseHex]
    · rw [natToHexGo, if_neg hn, parseHex_append]
      have hdiv : n / 16 < 16 ^ f := by
        rw [Nat.div_lt_iff_lt_mul (by norm_num)]
        calc n < 16 ^ (f + 1) := h
          _ = 16 ^ f * 16 := by ring
      rw [ih (n / 16) hdiv]
      have hm : n % 16 < 16 := Nat.mod_lt _ (by norm_num)
      simp [parseHex_cons, parseHex_nil, hexVal?_digitChar hm]
      omega

theorem allHex_natToHexGo :
    ∀ fuel n, ∀ c ∈ natToHexGo fuel n, isHexDigit c := by
  intro fuel
  induction fuel with
  | zero => intro n c hc; simp [natToHexGo] at hc
  | succ f ih =>
    intro n c hc
    by_cases hn : n = 0
    · simp [natToHexGo, hn] at hc
    · rw [natToHexGo, if_neg hn] at hc
      rcases List.mem_append.mp hc with h | h
      · exact ih (n / 16) c h
      · have hm : n % 16 < 16 := Nat.mod_lt _ (by norm_num)
        simp at h
        rw [h]
        exact isHexDigit_digitChar hm

theorem length_natToHexGo_le :
    ∀ fuel n w, 1 ≤ w → n < 16 ^ w → n < 16 ^ fuel →
      (natToHexGo fuel n).length ≤ w := by
  intro fuel
  induction fuel with
  | zero => intro n w _ _ _; simp [natToHexGo]
  | succ f ih =>
    intro n w hw hnw hnf
    by_cases hn : n = 0
    · simp [natToHexGo, hn]
    · rw [natToHexGo, if_neg hn, List.length_append]
      by_cases hsmall : n < 16
      · have : n / 16 = 0 := Nat.div_eq_of_lt hsmall
        rw [this, natToHexGo_zero]
        simpa using hw
      · have hw2 : 2 ≤ w := by
          by_contra hcon
          have : w = 1 := by omega
          rw [this] at hnw
          omega
        have hdivw : n / 16 < 16 ^ (w - 1) := by
          rw [Nat.div_lt_iff_lt_mul (by norm_num)]
          calc n < 16 ^ w := hnw
            _ = 16 ^ (w - 1) * 16 := by
                rw [← pow_succ]
                congr 1
                omega
        have hdivf : n / 16 < 16 ^ f := by
          rw [Nat.div_lt_iff_lt_mul (by norm_num)]
          calc n < 16 ^ (f + 1) := hnf
            _ = 16 ^ f * 16 := by ring
        have := ih (n / 16) (w - 1) (by omega) hdivw hdivf
        simp only [List.length_cons, List.length_nil]
        omega

theorem self_lt_sixteen_pow (n : Nat) : n < 16 ^ n :=
  lt_of_lt_of_le (Nat.lt_two_pow n) (Nat.pow_le_pow_left (by norm_num) n)

theorem parseHex_natToHex (n : Nat) : parseHex (natToHex n) = n := by
  unfold natToHex
  split_ifs with h
  · rw [h]; decide
  · exact parseHex_natToHexGo n n (self_lt_sixteen_pow n)

theorem allHex_natToHex (n : Nat) : ∀ c ∈ natToHex n, isHexDigit c := by
  unfold natToHex
  split_ifs with h
  · intro c hc; simp at hc; rw [hc]; decide
  · exact allHex_natToHexGo n n

theorem length_natToHex_le {n w : Nat} (hw : 1 ≤ w) (h : n < 16 ^ w) :
    (natToHex n).length ≤ w := by
  unfold natToHex
  split_ifs with h0
  · simpa using hw
  · exact length_natToHexGo_le n n w hw h (self_lt_sixteen_pow n)

theorem parseHex_replicate_zero (k : Nat) :
    parseHex (List.replicate k '0') = 0 := by
  induction k with
  | zero => rfl
  | succ m ih =>
    rw [List.replicate_succ, parseHex_cons, ih]
    simp [hexVal?]

theorem parseHex_zfill (w : Nat) (l : List Char) :
    parseHex (zfill w l) = parseHex l := by
  rw [zfill, parseHex_append, parseHex_replicate_zero]
  ring

theorem length_zfill (w : Nat) (l : List Char) :
    (zfill w l).length = max w l.length := by
  simp [zfill]
  omega

theorem allHex_zfill (w : Nat) {l : List Char} (h : ∀ c ∈ l, isHexDigit c) :
    ∀ c ∈ zfill w l, isHexDigit c := by
  intro c hc
  rcases List.mem_append.mp hc with h0 | h0
  · have := List.eq_of_mem_replicate h0
    rw [this]; decide
  · exact h c h0

theorem parseHex_padHex (w n : Nat) : parseHex (padHex w n) = n := by
  rw [padHex, parseHex_zfill, parseHex_natToHex]

theorem allHex_padHex (w n : Nat) : ∀ c ∈ padHex w n, isHexDigit c :=
  allHex_zfill w (allHex_natToHex n)

theorem length_padHex {w n : Nat} (hw : 1 ≤ w) (h : n < 16 ^ w) :
    (padHex w n).length = w := by
  rw [padHex, length_zfill]
  have := length_natToHex_le hw h
  omega

/- ------------------------------------------------------------------ -/
/- Splitting rendered UUID strings back into groups.                   -/
/- ------------------------------------------------------------------ -/

theorem splitDash_dashfree {l : List Char} (h : ∀ c ∈ l, c ≠ '-') :
    splitDash l = [l] := by
  induction l with
  | nil => rfl
  | cons c t ih =>
    have hc : c ≠ '-' := h c (by simp)
    rw [splitDash, if_neg hc, ih (fun x hx => h x (by simp [hx]))]

theorem splitDash_append {l : List Char} (r : List Char)
    (h : ∀ c ∈ l, c ≠ '-') :
    splitDash (l ++ '-' :: r) = l :: splitDash r := by
  induction l with
  | nil => simp [splitDash]
  | cons c t ih =>
    have hc : c ≠ '-' := h c (by simp)
    rw [List.cons_append, splitDash, if_neg hc,
      ih (fun x hx => h x (by simp [hx]))]

theorem allHex_dashfree {l : List Char} (h : ∀ c ∈ l, isHexDigit c) :
    ∀ c ∈ l, c ≠ '-' :=
  fun c hc => isHexDigit_ne_dash (h c hc)

theorem take_mid_drop (l : List Char) :
    l.take 3 ++ ((l.drop 3).take 4 ++ l.drop 7) = l := by
  have h1 : l.drop 7 = (l.drop 3).drop 4 := by
    rw [List.drop_drop]
  rw [h1, List.take_append_drop, List.take_append_drop]

/-- Shared decomposition of one rendered line: `splitDash` recovers the
five groups of `generate_uuid_v1_custom`'s output. -/
theorem custom_split (t : Nat) (clock mac : List Char) (save : Char)
    (hclock : ∀ c ∈ clock, isHexDigit c)
    (hmac : ∀ c ∈ mac, isHexDigit c)
    (hsave : isHexDigit save) :
    splitDash (generate_uuid_v1_custom t clock mac save)
      = [(zfill 15 (natToHex t)).drop 7,
         ((zfill 15 (natToHex t)).drop 3).take 4,
         save :: (zfill 15 (natToHex t)).take 3,
         clock, mac] := by
  have hpadded : ∀ c ∈ zfill 15 (natToHex t), isHexDigit c :=
    allHex_zfill 15 (allHex_natToHex t)
  have hlow : ∀ c ∈ (zfill 15 (natToHex t)).drop 7, c ≠ '-' :=
    fun c hc => isHexDigit_ne_dash (hpadded c (List.drop_subset _ _ hc))
  have hmid : ∀ c ∈ ((zfill 15 (natToHex t)).drop 3).take 4, c ≠ '-' :=
    fun c hc => isHexDigit_ne_dash
      (hpadded c (List.drop_subset _ _ (List.take_subset _ _ hc)))
  have hhigh : ∀ c ∈ save :: (zfill 15 (natToHex t)).take 3, c ≠ '-' := by
    intro c hc
    rcases List.mem_cons.mp hc with h | h
    · rw [h]; exact isHexDigit_ne_dash hsave
    · exact isHexDigit_ne_dash (hpadded c (List.take_subset _ _ h))
  have hclock' := allHex_dashfree hclock
  have hmac' := allHex_dashfree hmac
  have hshape : generate_uuid_v1_custom t clock mac save
      = (zfill 15 (natToHex t)).drop 7
        ++ '-' :: (((zfill 15 (natToHex t)).drop 3).take 4
          ++ '-' :: ((save :: (zfill 15 (natToHex t)).take 3)
            ++ '-' :: (clock ++ '-' :: mac))) := by
    simp [generate_uuid_v1_custom, List.append_assoc]
  rw [hshape, splitDash_append _ hlow, splitDash_append _ hmid,
    splitDash_append _ hhigh, splitDash_append _ hclock',
    splitDash_dashfree hmac']

/-- Shared round trip: decoding the rendered line recovers the timestamp
it was rendered from, for any 60-bit timestamp. -/
theorem lineTimestamp_custom (t : Nat) (clock mac : List Char) (save : Char)
    (hclock : ∀ c ∈ clock, isHexDigit c)
    (hmac : ∀ c ∈ mac, isHexDigit c)
    (hsave : isHexDigit save) :
    lineTimestamp (generate_uuid_v1_custom t clock mac save) = t := by
  rw [lineTimestamp, custom_split t clock mac save hclock hmac hsave]
  show parseHex ((save :: (zfill 15 (natToHex t)).take 3).drop 1
    ++ ((zfill 15 (natToHex t)).drop 3).take 4
    ++ (zfill 15 (natToHex t)).drop 7) = t
  rw [List.drop_one, List.tail_cons, List.append_assoc, take_mid_drop,
    parseHex_zfill, parseHex_natToHex]

/- ------------------------------------------------------------------ -/
/- The extracted 60-bit range integer.                                 -/
/- ------------------------------------------------------------------ -/

theorem parseHex_drop_one_padHex {n : Nat} (h : n < 16 ^ 4) :
    parseHex ((padHex 4 n).drop 1) = n % 4096 := by
  have hlen : (padHex 4 n).length = 4 := length_padHex (by norm_num) h
  have hsplit : padHex 4 n = (padHex 4 n).take 1 ++ (padHex 4 n).drop 1 :=
    (List.take_append_drop 1 _).symm
  have hdlen : ((padHex 4 n).drop 1).length = 3 := by
    rw [List.length_drop, hlen]
  have hparse : n = parseHex ((padHex 4 n).take 1) * 16 ^ 3
      + parseHex ((padHex 4 n).drop 1) := by
    conv_lhs => rw [← parseHex_padHex 4 n, hsplit]
    rw [parseHex_append, hdlen]
  have hlt : parseHex ((padHex 4 n).drop 1) < 16 ^ 3 := by
    have : parseHex ((padHex 4 n).drop 1)
        < 16 ^ ((padHex 4 n).drop 1).length :=
      parseHex_lt (fun c hc => allHex_padHex 4 n c (List.drop_subset _ _ hc))
    rwa [hdlen] at this
  omega

theorem extractTimestamp_eq_spec {u : UUIDFields} (h : Valid u) :
    extractTimestamp u = spec_timestamp60 u := by
  obtain ⟨h1, h2, h3, _, _, _⟩ := h
  have e1 : (padHex 8 u.time_low).length = 8 :=
    length_padHex (by norm_num) (by norm_num at h1 ⊢; omega)
  have e2 : (padHex 4 u.time_mid).length = 4 :=
    length_padHex (by norm_num) (by norm_num at h2 ⊢; omega)
  rw [extractTimestamp, parseHex_append, parseHex_append, e1, e2,
    parseHex_padHex, parseHex_padHex,
    parseHex_drop_one_padHex (by norm_num at h3 ⊢; omega),
    spec_timestamp60]
  ring

theorem spec_timestamp60_lt (u : UUIDFields) (h : Valid u) :
    spec_timestamp60 u < 2 ^ 60 := by
  obtain ⟨h1, h2, _, _, _, _⟩ := h
  have hm : u.time_hi_version % 4096 < 4096 := Nat.mod_lt _ (by norm_num)
  rw [spec_timestamp60]
  norm_num at h1 h2 ⊢
  omega

theorem extractTimestamp_lt {u : UUIDFields} (h : Valid u) :
    extractTimestamp u < 2 ^ 60 := by
  rw [extractTimestamp_eq_spec h]
  exact spec_timestamp60_lt u h

/- ------------------------------------------------------------------ -/
/- C1: order independence and size of the estimated range.             -/
/- ------------------------------------------------------------------ -/

/-- C1 (confirmed): for any two valid UUIDs `A` and `B`,
`estimate_range_size(A, B)` and `estimate_range_size(B, A)` report the
same `total_possible`, and that value is `|intA - intB| + 1` for the
60-bit integers formed from the version-stripped `time_hi`, `time_mid`
and `time_low` fields. -/
theorem estimate_range_size_total_possible (a b : UUIDFields)
    (ha : Valid a) (hb : Valid b) :
    (estimate_range_size a b).total_possible
        = (estimate_range_size b a).total_possible ∧
    ((estimate_range_size a b).total_possible : ℤ)
        = ((spec_timestamp60 a : ℤ) - (spec_timestamp60 b : ℤ)).natAbs + 1 := by
  have hea := extractTimestamp_eq_spec ha
  have heb := extractTimestamp_eq_spec hb
  unfold estimate_range_size
  rw [hea, heb]
  dsimp only
  split_ifs with h1 h2 h2 <;> dsimp only <;> omega

/-- Witness for C1 at the concrete pair from the spec's scenario,
`0867d7ee-f8d5-11ef-8a38-aedb2c11800f` / `093444c8-f8d5-11ef-8a38-aedb2c11800f`. -/
theorem estimate_range_size_total_possible_w :
    Valid ⟨0x0867d7ee, 0xf8d5, 0x11ef, 0x8a, 0x38, 0xaedb2c11800f⟩ ∧
    Valid ⟨0x093444c8, 0xf8d5, 0x11ef, 0x8a, 0x38, 0xaedb2c11800f⟩ ∧
    ((estimate_range_size
        ⟨0x0867d7ee, 0xf8d5, 0x11ef, 0x8a, 0x38, 0xaedb2c11800f⟩
        ⟨0x093444c8, 0xf8d5, 0x11ef, 0x8a, 0x38, 0xaedb2c11800f⟩).total_possible
      = (estimate_range_size
        ⟨0x093444c8, 0xf8d5, 0x11ef, 0x8a, 0x38, 0xaedb2c11800f⟩
        ⟨0x0867d7ee, 0xf8d5, 0x11ef, 0x8a, 0x38, 0xaedb2c11800f⟩).total_possible ∧
    ((estimate_range_size
        ⟨0x0867d7ee, 0xf8d5, 0x11ef, 0x8a, 0x38, 0xaedb2c11800f⟩
        ⟨0x093444c8, 0xf8d5, 0x11ef, 0x8a, 0x38, 0xaedb2c11800f⟩).total_possible : ℤ)
      = ((spec_timestamp60 ⟨0x0867d7ee, 0xf8d5, 0x11ef, 0x8a, 0x38, 0xaedb2c11800f⟩ : ℤ)
          - (spec_timestamp60 ⟨0x093444c8, 0xf8d5, 0x11ef, 0x8a, 0x38, 0xaedb2c11800f⟩ : ℤ)).natAbs + 1) :=
  ⟨by decide, by decide,
    estimate_range_size_total_possible _ _ (by decide) (by decide)⟩

/- ------------------------------------------------------------------ -/
/- C2: completeness of the enumerated range.                           -/
/- ------------------------------------------------------------------ -/

theorem getD_range_map {α : Type} (f : Nat → α) (n i : Nat) (d : α)
    (h : i < n) :
    ((List.range n).map f).getD i d = f i := by
  have hl : i < ((List.range n).map f).length := by simpa using h
  rw [List.getD_eq_getElem _ _ hl]
  simp

theorem allHex_clockStr (u : UUIDFields) : ∀ c ∈ clockStr u, isHexDigit c := by
  intro c hc
  rcases List.mem_append.mp hc with h | h
  · exact allHex_padHex 2 _ c h
  · exact allHex_padHex 2 _ c h

theorem allHex_macStr (u : UUIDFields) : ∀ c ∈ macStr u, isHexDigit c :=
  fun c hc => allHex_padHex 12 _ c hc

theorem headI_mem {l : List Char} (h : l ≠ []) : l.headI ∈ l := by
  cases l with
  | nil => exact absurd rfl h
  | cons c t => simp [List.headI]

theorem isHexDigit_saveChar {u : UUIDFields} (h : Valid u) :
    isHexDigit (saveChar u) := by
  have h3 : u.time_hi_version < 16 ^ 4 := by
    have := h.2.2.1
    norm_num at this ⊢
    omega
  have hlen : (padHex 4 u.time_hi_version).length = 4 :=
    length_padHex (by norm_num) h3
  have hne : padHex 4 u.time_hi_version ≠ [] := by
    intro hcon
    rw [hcon] at hlen
    simp at hlen
  exact allHex_padHex 4 _ _ (headI_mem hne)

/-- Index formula shared by the C2/C3 theorems: line `i` of the output is
the rendering of `min + i` with the start UUID's fixed strings. -/
theorem rangeOutputs_eq (a b : UUIDFields) :
    rangeOutputs a b
      = (List.range (max (extractTimestamp a) (extractTimestamp b)
            - min (extractTimestamp a) (extractTimestamp b) + 1)).map
          fun i => generate_uuid_v1_custom
            (min (extractTimestamp a) (extractTimestamp b) + i)
            (clockStr a) (macStr a) (saveChar a) := by
  have hmin : (if extractTimestamp a > extractTimestamp b
      then extractTimestamp b else extractTimestamp a)
      = min (extractTimestamp a) (extractTimestamp b) := by
    split_ifs <;> omega
  have hmax : (if extractTimestamp a > extractTimestamp b
      then extractTimestamp a else extractTimestamp b)
      = max (extractTimestamp a) (extractTimestamp b) := by
    split_ifs <;> omega
  rw [rangeOutputs]
  rw [hmin, hmax]

/-- C2 (confirmed): the enumerator writes exactly `total_possible` lines;
line `i` decodes to `min(intA, intB) + i`, so the first line decodes to
the minimum, the last to the maximum, the decoded timestamps are strictly
increasing, and equal endpoints give exactly one line. -/
theorem range_generation_complete (a b : UUIDFields)
    (ha : Valid a) (_hb : Valid b) :
    (rangeOutputs a b).length = (estimate_range_size a b).total_possible ∧
    (∀ i, i < (rangeOutputs a b).length →
        lineTimestamp ((rangeOutputs a b).getD i [])
          = min (extractTimestamp a) (extractTimestamp b) + i) ∧
    (∀ i j, i < (rangeOutputs a b).length → j < (rangeOutputs a b).length →
        i < j →
        lineTimestamp ((rangeOutputs a b).getD i [])
          < lineTimestamp ((rangeOutputs a b).getD j [])) ∧
    lineTimestamp ((rangeOutputs a b).getD 0 [])
        = min (extractTimestamp a) (extractTimestamp b) ∧
    lineTimestamp ((rangeOutputs a b).getD ((rangeOutputs a b).length - 1) [])
        = max (extractTimestamp a) (extractTimestamp b) ∧
    (extractTimestamp a = extractTimestamp b →
      (rangeOutputs a b).length = 1) := by
  have hlen : (rangeOutputs a b).length
      = max (extractTimestamp a) (extractTimestamp b)
        - min (extractTimestamp a) (extractTimestamp b) + 1 := by
    rw [rangeOutputs_eq, List.length_map, List.length_range]
  have hkey : ∀ i, i < (rangeOutputs a b).length →
      lineTimestamp ((rangeOutputs a b).getD i [])
        = min (extractTimestamp a) (extractTimestamp b) + i := by
    intro i hi
    rw [hlen] at hi
    rw [rangeOutputs_eq, getD_range_map _ _ _ _ hi]
    exact lineTimestamp_custom _ _ _ _ (allHex_clockStr a) (allHex_macStr a)
      (isHexDigit_saveChar ha)
  have htotal : (estimate_range_size a b).total_possible
      = max (extractTimestamp a) (extractTimestamp b)
        - min (extractTimestamp a) (extractTimestamp b) + 1 := by
    simp only [estimate_range_size]
    split_ifs with h <;> dsimp only <;> omega
  refine ⟨by rw [hlen, htotal], hkey, ?_, ?_, ?_, ?_⟩
  · intro i j hi hj hij
    rw [hkey i hi, hkey j hj]
    omega
  · have h0 : 0 < (rangeOutputs a b).length := by rw [hlen]; omega
    rw [hkey 0 h0]
    omega
  · have hl : (rangeOutputs a b).length - 1 < (rangeOutputs a b).length := by
      rw [hlen]; omega
    rw [hkey _ hl, hlen]
    omega
  · intro heq
    rw [hlen, heq]
    omega

/-- Witness for C2 at a concrete pair three timestamps apart. -/
theorem range_generation_complete_w :
    Valid ⟨5, 0, 0x11ef, 0x8a, 0x38, 7⟩ ∧
    Valid ⟨7, 0, 0x11ef, 0x8a, 0x38, 7⟩ ∧
    (rangeOutputs ⟨5, 0, 0x11ef, 0x8a, 0x38, 7⟩ ⟨7, 0, 0x11ef, 0x8a, 0x38, 7⟩).length
      = (estimate_range_size ⟨5, 0, 0x11ef, 0x8a, 0x38, 7⟩
          ⟨7, 0, 0x11ef, 0x8a, 0x38, 7⟩).total_possible :=
  ⟨by decide, by decide,
    (range_generation_complete _ _ (by decide) (by decide)).1⟩

/- ------------------------------------------------------------------ -/
/- C3: which UUID the fixed fields are taken from.                     -/
/- ------------------------------------------------------------------ -/

/-- C3 counterexample: with a start argument whose extracted timestamp is
LARGER than the end argument's, the claim says every generated line's
clock-sequence and node groups come from the post-swap start (the end
argument, here with clock bytes `8a38` and node `5`); the code takes them
from the caller-supplied start argument (clock bytes `1122`, node `3`),
so the claimed property fails on this concrete range. -/
theorem range_fields_claim_false :
    ¬ ∀ line ∈ rangeOutputs
        (⟨1, 0, 0x1000, 0x11, 0x22, 3⟩ : UUIDFields)
        (⟨0, 0, 0x1000, 0x8a, 0x38, 5⟩ : UUIDFields),
      ((splitDash line).getD 3 []
          = clockStr (⟨0, 0, 0x1000, 0x8a, 0x38, 5⟩ : UUIDFields) ∧
        (splitDash line).getD 4 []
          = macStr (⟨0, 0, 0x1000, 0x8a, 0x38, 5⟩ : UUIDFields)) := by
  decide

/-- C3 (corrected): the clock-sequence and node groups, and the leading
version nibble of the third group, of every generated UUID equal those of
the CALLER-SUPPLIED start UUID (the first argument), whether or not the
endpoints were swapped. -/
theorem range_fields_from_caller_start (a b : UUIDFields)
    (ha : Valid a) (_hb : Valid b) :
    ∀ line ∈ rangeOutputs a b, ∃ g1 g2 g3,
      splitDash line = [g1, g2, saveChar a :: g3, clockStr a, macStr a] := by
  intro line hline
  rw [rangeOutputs_eq] at hline
  obtain ⟨i, _, heq⟩ := List.mem_map.mp hline
  rw [← heq, custom_split _ _ _ _ (allHex_clockStr a) (allHex_macStr a)
    (isHexDigit_saveChar ha)]
  exact ⟨_, _, _, rfl⟩

/-- Witness for C3's corrected statement on a concrete swapped pair. -/
theorem range_fields_from_caller_start_w :
    Valid (⟨1, 0, 0x1000, 0x11, 0x22, 3⟩ : UUIDFields) ∧
    Valid (⟨0, 0, 0x1000, 0x8a, 0x38, 5⟩ : UUIDFields) ∧
    ∀ line ∈ rangeOutputs
        (⟨1, 0, 0x1000, 0x11, 0x22, 3⟩ : UUIDFields)
        (⟨0, 0, 0x1000, 0x8a, 0x38, 5⟩ : UUIDFields),
      ∃ g1 g2 g3,
        splitDash line
          = [g1, g2,
             saveChar (⟨1, 0, 0x1000, 0x11, 0x22, 3⟩ : UUIDFields) :: g3,
             clockStr (⟨1, 0, 0x1000, 0x11, 0x22, 3⟩ : UUIDFields),
             macStr (⟨1, 0, 0x1000, 0x11, 0x22, 3⟩ : UUIDFields)] :=
  ⟨by decide, by decide,
    range_fields_from_caller_start _ _ (by decide) (by decide)⟩

/- ------------------------------------------------------------------ -/
/- C10: encoder / extractor round trip.                                -/
/- ------------------------------------------------------------------ -/

/-- C10 (confirmed): for every 60-bit timestamp, 4-hex-digit clock
string, 12-hex-digit mac string and hex save character, the rendered
UUID splits into five hex groups of lengths 8-4-4-4-12, the third group
starts with the save character, and parsing the third group without its
first character, then the second, then the first group recovers the
timestamp exactly. -/
theorem generate_uuid_v1_custom_roundtrip (t : Nat) (clock mac : List Char)
    (save : Char) (ht : t < 2 ^ 60)
    (hclock_len : clock.length = 4) (hclock : ∀ c ∈ clock, isHexDigit c)
    (hmac_len : mac.length = 12) (hmac : ∀ c ∈ mac, isHexDigit c)
    (hsave : isHexDigit save) :
    ∃ g1 g2 g3 g4 g5,
      splitDash (generate_uuid_v1_custom t clock mac save)
          = [g1, g2, g3, g4, g5] ∧
      g1.length = 8 ∧ g2.length = 4 ∧ g3.length = 4 ∧
      g4.length = 4 ∧ g5.length = 12 ∧
      (∀ c ∈ g1, isHexDigit c) ∧ (∀ c ∈ g2, isHexDigit c) ∧
      (∀ c ∈ g3, isHexDigit c) ∧ (∀ c ∈ g4, isHexDigit c) ∧
      (∀ c ∈ g5, isHexDigit c) ∧
      g3.headI = save ∧
      parseHex (g3.drop 1 ++ g2 ++ g1) = t := by
  have ht' : t < 16 ^ 15 := by
    norm_num at ht ⊢
    exact ht
  have hlen15 : (zfill 15 (natToHex t)).length = 15 := by
    rw [length_zfill]
    have := length_natToHex_le (by norm_num) ht'
    omega
  have hpadded : ∀ c ∈ zfill 15 (natToHex t), isHexDigit c :=
    allHex_zfill 15 (allHex_natToHex t)
  refine ⟨_, _, _, _, _,
    custom_split t clock mac save hclock hmac hsave,
    ?_, ?_, ?_, hclock_len, hmac_len, ?_, ?_, ?_, hclock, hmac, rfl, ?_⟩
  · rw [List.length_drop, hlen15]
  · simp [List.length_take, List.length_drop, hlen15]
  · simp [List.length_take, hlen15]
  · exact fun c hc => hpadded c (List.drop_subset _ _ hc)
  · exact fun c hc =>
      hpadded c (List.drop_subset _ _ (List.take_subset _ _ hc))
  · intro c hc
    rcases List.mem_cons.mp hc with h | h
    · rw [h]; exact hsave
    · exact hpadded c (List.take_subset _ _ h)
  · rw [List.drop_one, List.tail_cons, List.append_assoc, take_mid_drop,
      parseHex_zfill, parseHex_natToHex]

/-- Witness for C10 at timestamp 255 with concrete clock, mac and save
inputs. -/
theorem generate_uuid_v1_custom_roundtrip_w :
    (255 : Nat) < 2 ^ 60 ∧
    ∃ g1 g2 g3 g4 g5,
      splitDash (generate_uuid_v1_custom 255 (['8', 'a', '3', '8'])
          (['a', 'e', 'd', 'b', '2', 'c', '1', '1', '8', '0', '0', 'f'])
          '1')
          = [g1, g2, g3, g4, g5] ∧
      g1.length = 8 ∧ g2.length = 4 ∧ g3.length = 4 ∧
      g4.length = 4 ∧ g5.length = 12 ∧
      (∀ c ∈ g1, isHexDigit c) ∧ (∀ c ∈ g2, isHexDigit c) ∧
      (∀ c ∈ g3, isHexDigit c) ∧ (∀ c ∈ g4, isHexDigit c) ∧
      (∀ c ∈ g5, isHexDigit c) ∧
      g3.headI = '1' ∧
      parseHex (g3.drop 1 ++ g2 ++ g1) = 255 :=
  ⟨by norm_num,
    generate_uuid_v1_custom_roundtrip 255 _ _ _ (by norm_num)
      (by decide) (by decide) (by decide) (by decide) (by decide)⟩

/- ------------------------------------------------------------------ -/
/- C4: the heuristic v2 re-classification.                             -/
/- ------------------------------------------------------------------ -/

/-- C4 counterexample: a UUID whose version nibble is 1, whose variant
bits are `0b10` (`clock_seq_hi = 0x8a`, the DCE/RFC variant named by the
claim) and whose clock sequence `0xa27` lies in `[1, 0x3FFF]`.  The
claim says the analyzer re-labels it version 2; the code checks
`variant == 1` (bits `0b01`), so it keeps version 1 and never flags
`possible_v2`. -/
theorem analyze_v2_claim_false :
    ¬ (analyze_version (⟨0, 0, 0x1abc, 0x8a, 0x27, 0⟩ : UUIDFields)
          = (some 2, true) ↔
        ((⟨0, 0, 0x1abc, 0x8a, 0x27, 0⟩ : UUIDFields).clock_seq_hi / 64 = 2 ∧
          1 ≤ clockSeq (⟨0, 0, 0x1abc, 0x8a, 0x27, 0⟩ : UUIDFields) ∧
          clockSeq (⟨0, 0, 0x1abc, 0x8a, 0x27, 0⟩ : UUIDFields) ≤ 0x3FFF)) := by
  decide

/-- C4 (corrected): for a UUID whose version nibble reads 1, the analyzer
re-labels it version 2 (with `possible_v2`) exactly when the variant bits
`clock_seq_hi >> 6` equal `0b01` (value 1, `clock_seq_hi` in `0x40`–`0x7F`)
and the 14-bit clock sequence lies in `[1, 0x3FFF]`; when the variant
bits are `0b10` (the RFC variant, where the library actually reports
version 1) the UUID keeps version 1. -/
theorem analyze_v2_relabel (u : UUIDFields) (hu : Valid u)
    (hver : u.time_hi_version / 4096 = 1) :
    (analyze_version u = (some 2, true) ↔
      (u.clock_seq_hi / 64 = 1 ∧ 1 ≤ clockSeq u ∧ clockSeq u ≤ 0x3FFF)) ∧
    (u.clock_seq_hi / 64 = 2 → analyze_version u = (some 1, false)) := by
  have hcs : u.clock_seq_hi < 256 := by
    have := hu.2.2.2.1
    norm_num at this
    exact this
  unfold analyze_version python_version python_variant is_likely_uuid_v2
  constructor
  · constructor
    · intro h
      by_cases hv : u.clock_seq_hi / 64 = 1
      · refine ⟨hv, ?_⟩
        rw [if_pos hv] at h
        by_cases hrange : 1 ≤ clockSeq u ∧ clockSeq u ≤ 0x3FFF
        · exact hrange
        · rw [if_neg hrange] at h
          split_ifs at h <;> simp_all
      · rw [if_neg hv] at h
        split_ifs at h <;> simp_all
    · rintro ⟨hv, hrange⟩
      have hb1 : u.clock_seq_hi / 128 % 2 = 0 := by omega
      rw [if_pos hb1]
      simp only [if_pos hv, if_pos hrange]
      simp
  · intro hv
    have hb1 : ¬ u.clock_seq_hi / 128 % 2 = 0 := by omega
    have hb2 : u.clock_seq_hi / 64 % 2 = 0 := by omega
    have hv1 : u.clock_seq_hi / 64 ≠ 1 := by omega
    rw [if_neg hb1, if_pos hb2]
    have hnib : u.time_hi_version / 4096 % 16 = 1 := by
      rw [hver]
    rw [hnib]
    simp only [if_neg hv1]
    simp

/-- Witness for C4's corrected statement at a UUID with version nibble 1,
variant bits `0b01` and clock sequence `0xa27`, which the analyzer does
re-label as possible v2. -/
theorem analyze_v2_relabel_w :
    Valid (⟨0, 0, 0x1abc, 0x4a, 0x27, 0⟩ : UUIDFields) ∧
    (⟨0, 0, 0x1abc, 0x4a, 0x27, 0⟩ : UUIDFields).time_hi_version / 4096 = 1 ∧
    (analyze_version (⟨0, 0, 0x1abc, 0x4a, 0x27, 0⟩ : UUIDFields)
        = (some 2, true) ↔
      ((⟨0, 0, 0x1abc, 0x4a, 0x27, 0⟩ : UUIDFields).clock_seq_hi / 64 = 1 ∧
        1 ≤ clockSeq (⟨0, 0, 0x1abc, 0x4a, 0x27, 0⟩ : UUIDFields) ∧
        clockSeq (⟨0, 0, 0x1abc, 0x4a, 0x27, 0⟩ : UUIDFields) ≤ 0x3FFF)) :=
  ⟨by decide, by decide,
    (analyze_v2_relabel _ (by decide) (by decide)).1⟩

/- ------------------------------------------------------------------ -/
/- C5 and C6: the Unix/UUID timestamp codec.                           -/
/- ------------------------------------------------------------------ -/

theorem py_int_of_nonneg {q : ℚ} (h : 0 ≤ q) : py_int q = ⌊q⌋ :=
  if_pos h

/-- The three time fields built by `generate_uuid_v1` jointly encode the
timestamp integer reduced modulo `2 ^ 60`. -/
theorem uuidTime_generate (t : ℚ) (node : Nat) :
    uuidTime (generate_uuid_v1 t node)
      = (to_uuid_timestamp t).toNat % 2 ^ 60 := by
  unfold generate_uuid_v1 uuidTime
  dsimp only
  have h60 : (2 : ℕ) ^ 60 = 0x1000000000000000 := by norm_num
  rw [h60]
  omega

/-- C5 counterexample: at `unixSeconds = 3 / 40000000` (an exact
multiple of a quarter tick) the code's `int()` conversion truncates to
`122192928000000000`, while the claimed `round` gives
`122192928000000001`. -/
theorem to_uuid_timestamp_not_round :
    to_uuid_timestamp (3 / 40000000)
      ≠ round (((3 : ℚ) / 40000000 + 12219292800) * 10000000) := by
  have hq : (((3 : ℚ) / 40000000 + 12219292800) * 10000000)
      = (3 : ℚ) / 4 + ((122192928000000000 : ℤ) : ℚ) := by
    push_cast
    norm_num
  have hfl : (⌊(3 : ℚ) / 4⌋ : ℤ) = 0 := by
    rw [Int.floor_eq_zero_iff]
    constructor <;> norm_num
  have h1 : to_uuid_timestamp (3 / 40000000) = 122192928000000000 := by
    unfold to_uuid_timestamp py_int
    rw [hq, if_pos (by positivity), Int.floor_add_int, hfl]
    ring
  have h2 : round (((3 : ℚ) / 40000000 + 12219292800) * 10000000)
      = 122192928000000001 := by
    rw [hq, round_eq]
    have hshift : ((3 : ℚ) / 4 + ((122192928000000000 : ℤ) : ℚ)) + 1 / 2
        = (5 : ℚ) / 4 + ((122192928000000000 : ℤ) : ℚ) := by ring
    rw [hshift, Int.floor_add_int]
    have hfl2 : (⌊(5 : ℚ) / 4⌋ : ℤ) = 1 := by
      rw [Int.floor_eq_iff]
      constructor <;> norm_num
    rw [hfl2]
    ring
  rw [h1, h2]
  omega

/-- C5 (corrected): on the representable window the conversion returns
`⌊(unixSeconds + 12219292800) * 10^7⌋` — Python's `int()` truncation
toward zero, which on nonnegative values is the floor, not the nearest
tick — and the 60-bit reduction happens when the timestamp is split into
UUID fields, which encode the value modulo `2 ^ 60`. -/
theorem to_uuid_timestamp_floor (t : ℚ) (h : 0 ≤ t + 12219292800) :
    to_uuid_timestamp t = ⌊(t + 12219292800) * 10000000⌋ ∧
    ∀ node, uuidTime (generate_uuid_v1 t node)
        = (to_uuid_timestamp t).toNat % 2 ^ 60 := by
  constructor
  · unfold to_uuid_timestamp
    exact py_int_of_nonneg (mul_nonneg h (by norm_num))
  · intro node
    exact uuidTime_generate t node

/-- Witness for C5's corrected statement at `unixSeconds = 0`. -/
theorem to_uuid_timestamp_floor_w :
    (0 : ℚ) ≤ 0 + 12219292800 ∧
    (to_uuid_timestamp 0 = ⌊((0 : ℚ) + 12219292800) * 10000000⌋ ∧
      ∀ node, uuidTime (generate_uuid_v1 0 node)
          = (to_uuid_timestamp 0).toNat % 2 ^ 60) :=
  ⟨by norm_num, to_uuid_timestamp_floor 0 (by norm_num)⟩

/-- C6 (confirmed): within the representable 60-bit window, decoding the
UUID generated at Unix timestamp `t` returns `t` to within one
100-nanosecond tick. -/
theorem uuid_timestamp_roundtrip (t : ℚ) (node : Nat)
    (h1 : 0 ≤ t + 12219292800)
    (h2 : (t + 12219292800) * 10000000 < 2 ^ 60) :
    |uuid_to_timestamp (generate_uuid_v1 t node) - t| ≤ 1 / 10000000 := by
  set x : ℚ := (t + 12219292800) * 10000000 with hx
  have hx0 : 0 ≤ x := mul_nonneg h1 (by norm_num)
  have hts : to_uuid_timestamp t = ⌊x⌋ := by
    unfold to_uuid_timestamp
    rw [← hx]
    exact py_int_of_nonneg hx0
  have hfl0 : 0 ≤ ⌊x⌋ := Int.floor_nonneg.mpr hx0
  have htn : (((to_uuid_timestamp t).toNat : ℤ)) = ⌊x⌋ := by
    rw [hts]
    exact Int.toNat_of_nonneg hfl0
  have hnq : (((to_uuid_timestamp t).toNat : ℚ)) = ((⌊x⌋ : ℤ) : ℚ) := by
    exact_mod_cast htn
  have hle : (((to_uuid_timestamp t).toNat : ℚ)) ≤ x := by
    rw [hnq]
    exact Int.floor_le x
  have hgt : x - 1 < (((to_uuid_timestamp t).toNat : ℚ)) := by
    rw [hnq]
    exact Int.sub_one_lt_floor x
  have hn60 : (to_uuid_timestamp t).toNat < 2 ^ 60 := by
    by_contra hcon
    push_neg at hcon
    have hcast : (2 : ℚ) ^ 60 ≤ (((to_uuid_timestamp t).toNat : ℚ)) := by
      exact_mod_cast hcon
    linarith
  have hut : uuidTime (generate_uuid_v1 t node) = (to_uuid_timestamp t).toNat := by
    rw [uuidTime_generate]
    exact Nat.mod_eq_of_lt hn60
  have hval : uuid_to_timestamp (generate_uuid_v1 t node) - t
      = ((((to_uuid_timestamp t).toNat : ℚ)) - x) / 10000000 := by
    unfold uuid_to_timestamp
    rw [hut, hx]
    field_simp
    ring
  rw [hval, abs_div, abs_of_pos (show (0 : ℚ) < 10000000 by norm_num)]
  have habs : |(((to_uuid_timestamp t).toNat : ℚ)) - x| ≤ 1 :=
    abs_le.mpr ⟨by linarith, by linarith⟩
  calc |(((to_uuid_timestamp t).toNat : ℚ)) - x| / 10000000
      ≤ 1 / 10000000 := by gcongr

/-- Witness for C6 at `t = 0`. -/
theorem uuid_timestamp_roundtrip_w :
    (0 : ℚ) ≤ 0 + 12219292800 ∧
    ((0 : ℚ) + 12219292800) * 10000000 < 2 ^ 60 ∧
    |uuid_to_timestamp (generate_uuid_v1 0 0) - 0| ≤ 1 / 10000000 :=
  ⟨by norm_num, by norm_num,
    uuid_timestamp_roundtrip 0 0 (by norm_num) (by norm_num)⟩

/- ------------------------------------------------------------------ -/
/- C7: per-item failures are silently skipped, not fatal.              -/
/- ------------------------------------------------------------------ -/

/-- C7 (the code at the failing input): over the range `[0, 2]`
(`total_possible = 2 - 0 + 1 = 3`) with rendering failing at timestamp 1,
the loop silently skips the failed item, keeps producing the rest of the
range (the line for timestamp 2 is present), writes only 2 of the 3
lines, and the task still finishes `completed`, never `error` — the
behaviour the claim (and the spec's stated intent) forbids. -/
theorem silent_skip_completes :
    (run_fast_generation failing_render 0 2).2 = TaskStatus.completed ∧
    (run_fast_generation failing_render 0 2).2 ≠ TaskStatus.error ∧
    (run_fast_generation failing_render 0 2).1.length = 2 ∧
    (run_fast_generation failing_render 0 2).1.length ≠ 2 - 0 + 1 ∧
    natToHex 2 ∈ (run_fast_generation failing_render 0 2).1 := by
  decide

/- ------------------------------------------------------------------ -/
/- C8: cancelling a terminal task is not a no-op.                      -/
/- ------------------------------------------------------------------ -/

/-- C8 counterexample: cancelling a task that is already `completed` and
has an existing output file is NOT a no-op — the claim's property (status
unchanged and output kept) fails: the handler rewrites the status to
`cancelled` and deletes the file. -/
theorem cancel_not_noop :
    ¬ ((cancel_generation
          (⟨TaskStatus.completed, false, false, some 0⟩ : Task) true).1.status
        = TaskStatus.completed ∧
      (cancel_generation
          (⟨TaskStatus.completed, false, false, some 0⟩ : Task) true).2
        = true) := by
  decide

/-- C8 (corrected): cancelling any registered task — whatever its state,
terminal or not — always sets its status to `cancelled`, sets the
`cancelled` flag and an error message, and deletes the task's output
file when one exists (afterwards the file exists only if it existed and
the task had no file handle). -/
theorem cancel_generation_always_mutates (task : Task) (fe : Bool) :
    (cancel_generation task fe).1.status = TaskStatus.cancelled ∧
    (cancel_generation task fe).1.cancelled = true ∧
    (cancel_generation task fe).1.error_set = true ∧
    (cancel_generation task fe).2 = (fe && !task.file_path.isSome) := by
  obtain ⟨s, c, e, fp⟩ := task
  cases fp <;> cases fe <;> exact ⟨rfl, rfl, rfl, rfl⟩

/- ------------------------------------------------------------------ -/
/- C9: progress is bounded and monotonically non-decreasing.           -/
/- ------------------------------------------------------------------ -/

theorem filterMap_ite_eq_map_filter (l : List Nat) (P : Nat → Prop)
    [DecidablePred P] (f : Nat → ℚ) :
    (l.filterMap fun i => if P i then some (f i) else none)
      = (l.filter fun i => decide (P i)).map f := by
  induction l with
  | nil => rfl
  | cons a t ih =>
    by_cases h : P a <;>
      simp [List.filterMap_cons, List.filter_cons, h, ih]

theorem progress_value_mono {total : Nat} {i j : Nat} (hij : i ≤ j) :
    min 100 (((i : Nat) : ℚ) / (total : ℚ) * 100)
      ≤ min 100 (((j : Nat) : ℚ) / (total : ℚ) * 100) := by
  rcases Nat.eq_zero_or_pos total with h0 | hpos
  · simp [h0]
  · refine min_le_min le_rfl ?_
    have hc : (0 : ℚ) < (total : ℚ) := by exact_mod_cast hpos
    have hij' : ((i : Nat) : ℚ) ≤ ((j : Nat) : ℚ) := by exact_mod_cast hij
    have hdiv := (div_le_div_iff_of_pos_right hc).mpr hij'
    exact mul_le_mul_of_nonneg_right hdiv (by norm_num)

theorem progress_value_bounds (total count : Nat) :
    0 ≤ min 100 (((count : Nat) : ℚ) / (total : ℚ) * 100) ∧
      min 100 (((count : Nat) : ℚ) / (total : ℚ) * 100) ≤ 100 := by
  constructor
  · refine le_min (by norm_num) ?_
    positivity
  · exact min_le_left _ _

/-- C9 (confirmed): starting from the initial `progress = 0`, the
successive values the generation loop stores in the task's progress field
are each `min(100, count / total_possible * 100)` for a count that only
grows, so the observed sequence stays within `[0, 100]` and is
monotonically non-decreasing — a concurrent status read never sees
progress go down. -/
theorem progress_updates_monotone (written total : Nat) :
    List.Chain' (· ≤ ·) ((0 : ℚ) :: progress_updates written total) ∧
    ∀ p ∈ (0 : ℚ) :: progress_updates written total, 0 ≤ p ∧ p ≤ 100 := by
  have hbound : ∀ p ∈ progress_updates written total, 0 ≤ p ∧ p ≤ 100 := by
    intro p hp
    obtain ⟨i, _, heq⟩ := List.mem_filterMap.mp hp
    by_cases h : (i + 1) % 1000 = 0
    · rw [if_pos h] at heq
      obtain rfl : min 100 (((i + 1 : Nat) : ℚ) / (total : ℚ) * 100) = p :=
        Option.some.inj heq
      exact progress_value_bounds total (i + 1)
    · rw [if_neg h] at heq
      exact absurd heq (by simp)
  constructor
  · rw [List.chain'_cons']
    constructor
    · intro y hy
      rcases hmem : (progress_updates written total).head? with _ | q
      · rw [hmem] at hy
        exact absurd hy (by simp)
      · rw [hmem] at hy
        have hq : q = y := by simpa using hy
        have : q ∈ progress_updates written total :=
          List.mem_of_mem_head? hmem
        rw [← hq]
        exact (hbound q this).1
    · have hpair : List.Pairwise (· < ·) (List.range written) :=
        List.pairwise_lt_range written
      have hpairf : List.Pairwise (· < ·)
          ((List.range written).filter
            fun i => decide ((i + 1) % 1000 = 0)) :=
        hpair.filter _
      have : List.Pairwise (· ≤ ·) (progress_updates written total) := by
        rw [progress_updates, filterMap_ite_eq_map_filter,
          List.pairwise_map]
        exact hpairf.imp fun hab => progress_value_mono (by omega)
      exact this.chain'
  · intro p hp
    rcases List.mem_cons.mp hp with h | h
    · rw [h]
      norm_num
    · exact hbound p h
